import Mathlib

/-!
Shallow embedding of the cleaning engine of `src/data_cleaner.py`
(repository `datacleaning-assistant`).

Modelling conventions:
* Text (Python `str`) is a list of Unicode code points, `Str := List Nat`.
* A pandas numeric cell is `Option Rat` (`none` is NaN/missing); an
  object-dtype cell is `Option Str`.
* A DataFrame is viewed column-major (`List Col`) by the per-column passes
  and row-major (`List Row`) by duplicate removal; both are faithful views
  of the same rectangular table.
* Floating point is modelled by exact rationals; the one place where the
  source produces NaN from arithmetic (min-max scaling of a constant
  column, `0/0`) is modelled by `divOrNaN` returning `none`.
* The process-wide `self.actions` log is threaded explicitly: a pass that
  the log claims concern returns `result × List LogEntry`.
-/

/-! Text model: code points, ASCII lowercasing, snake-case conversion. -/

abbrev Str := List Nat

/-- ASCII lowercase of one code point, as Python `str.lower` acts on ASCII. -/
def lowerChar (c : Nat) : Nat := if 65 ≤ c ∧ c ≤ 90 then c + 32 else c

/-- Python `s.lower()` on a code-point list. -/
def lowerStr (s : Str) : Str := s.map lowerChar

/-- Characters matched by the regex class `[\s-]`: space, TAB, LF, CR,
vertical tab, form feed, hyphen. -/
def isSpaceHyphen (c : Nat) : Bool :=
  c = 32 ∨ c = 9 ∨ c = 10 ∨ c = 13 ∨ c = 11 ∨ c = 12 ∨ c = 45

/-- Characters kept by `re.sub(r'[^a-z0-9_]', '', name)`. -/
def isAllowed (c : Nat) : Bool :=
  (97 ≤ c ∧ c ≤ 122) ∨ (48 ≤ c ∧ c ≤ 57) ∨ c = 95

/-- State machine for `re.sub(r'[\s-]+', '_', name)`: a maximal run of
space/hyphen characters becomes one underscore (code 95).  The flag records
whether the previous character was part of such a run. -/
def collapseAux (inRun : Bool) : List Nat → List Nat
  | [] => []
  | c :: rest =>
    if isSpaceHyphen c then
      if inRun then collapseAux true rest else 95 :: collapseAux true rest
    else c :: collapseAux false rest

/-- Embedding of `re.sub(r'[\s-]+', '_', name)`. -/
def collapseRuns (s : Str) : Str := collapseAux false s

/-- Embedding of `to_snake_case` in `standardize_columns`:
collapse whitespace/hyphen runs to `_`, lowercase, drop characters outside
`[a-z0-9_]` (in exactly the source order). -/
def toSnakeCase (s : Str) : Str := (lowerStr (collapseRuns s)).filter isAllowed

/-- Convenience: code points of a Lean string literal, for concrete tests. -/
def codes (s : String) : Str := s.data.map Char.toNat

/-! Rational statistics used by the passes. -/

/-- Mean of a list of rationals (`Series.mean` over the non-null values). -/
def meanR (l : List Rat) : Rat := l.sum / (l.length : Rat)

/-- Insertion step of insertion sort on rationals. -/
def insertSorted (x : Rat) : List Rat → List Rat
  | [] => [x]
  | y :: ys => if x ≤ y then x :: y :: ys else y :: insertSorted x ys

/-- Insertion sort on rationals (models pandas sorting values internally). -/
def sortRat (l : List Rat) : List Rat := l.foldr insertSorted []

/-- `Series.median` over the given values: middle element of the sorted
list, or the average of the two middle elements for even length. -/
def medianR (l : List Rat) : Rat :=
  let s := sortRat l
  let n := s.length
  if n % 2 = 1 then s.getD (n / 2) 0
  else (s.getD (n / 2 - 1) 0 + s.getD (n / 2) 0) / 2

/-- Exact decision of `Series.skew() < 2` on the non-null values.
pandas computes the bias-corrected sample skewness
`g = sqrt(n*(n-1))/(n-2) * m3/m2^(3/2)` (`m2`,`m3` the biased central
moments); its `nanskew` returns NaN when fewer than 3 non-null values are
present (`NaN < 2` is false) and explicitly overrides the zero-variance
case to 0.0 (`result = 0 if m2 == 0 else result`), so a constant column
with at least 3 values compares `0.0 < 2`, true.  For `m3 ≤ 0` the
skewness is `≤ 0 < 2`; for `m3 > 0`, `g < 2` iff
`n*(n-1)*m3^2 < 4*(n-2)^2*m2^3`, which is decidable over `Rat`. -/
def skewLtTwo (l : List Rat) : Bool :=
  let n := l.length
  if n < 3 then false
  else
    let mu := meanR l
    let m2 := (l.map (fun x => (x - mu) ^ 2)).sum / (n : Rat)
    let m3 := (l.map (fun x => (x - mu) ^ 3)).sum / (n : Rat)
    if m2 = 0 then true
    else if m3 ≤ 0 then true
    else decide ((n : Rat) * ((n : Rat) - 1) * m3 ^ 2
                  < 4 * ((n : Rat) - 2) ^ 2 * m2 ^ 3)

/-- `Series.quantile(p)` with the default linear interpolation, on an
already sorted list `s`: position `h = p*(n-1)`, value
`s[floor h] + (h - floor h) * (s[floor h + 1] - s[floor h])`. -/
def quantileR (s : List Rat) (p : Rat) : Rat :=
  let h := p * ((s.length : Rat) - 1)
  let k := (Int.floor h).toNat
  let xk := s.getD k 0
  let xk1 := s.getD (k + 1) xk
  xk + (h - (k : Rat)) * (xk1 - xk)

/-- `Series.clip(lower, upper)` on one value. -/
def clipR (lo hi x : Rat) : Rat := min (max x lo) hi

/-! Generic helpers over lists with decidable equality. -/

/-- Distinct elements in first-seen order, with an accumulator of values
already emitted; `uniqueVals` is `Series.dropna().unique()` order. -/
def uniqAux {α : Type} [DecidableEq α] (seen : List α) : List α → List α
  | [] => []
  | x :: xs => if x ∈ seen then uniqAux seen xs else x :: uniqAux (x :: seen) xs

/-- Distinct elements of `l` in first-seen order. -/
def uniqueVals {α : Type} [DecidableEq α] (l : List α) : List α := uniqAux [] l

/-- Largest multiplicity appearing in `l`. -/
def maxCount {α : Type} [DecidableEq α] (l : List α) : Nat :=
  ((uniqueVals l).map (fun v => l.count v)).foldl max 0

/-- `Series.mode()[0]`: pandas returns the most frequent values sorted
ascending and the source takes the first, i.e. the smallest (by `le`) among
the values of maximal multiplicity; `none` when `l` is empty. -/
def pandasMode {α : Type} [DecidableEq α] (le : α → α → Bool) (l : List α) :
    Option α :=
  match (uniqueVals l).filter (fun v => l.count v = maxCount l) with
  | [] => none
  | c :: cs => some (cs.foldl (fun a b => if le b a then b else a) c)

/-- Decidable `≤` on rationals as a Bool, for `pandasMode`. -/
def ratLe (a b : Rat) : Bool := a ≤ b

/-- Lexicographic order on code-point lists: Python string `<=`. -/
def lexLe : Str → Str → Bool
  | [], _ => true
  | _ :: _, [] => false
  | a :: as, b :: bs => if a < b then true else if b < a then false else lexLe as bs

/-! Data model: strategies, columns, rows, action-log entries. -/

/-- The missing-value strategies understood by `handle_missing_values`. -/
inductive Strategy
  | auto
  | mean
  | median
  | mode
  | drop
deriving DecidableEq

/-- One named column: numeric dtype (`int64`/`float64`) or object dtype.
`none` cells are NaN/missing. -/
inductive Col
  | num (name : Str) (cells : List (Option Rat))
  | txt (name : Str) (cells : List (Option Str))
deriving DecidableEq

/-- Name of a column. -/
def Col.name : Col → Str
  | .num n _ => n
  | .txt n _ => n

/-- Whether the column's dtype is numeric (`df[col].dtype in ['int64','float64']`). -/
def Col.isNum : Col → Bool
  | .num _ _ => true
  | .txt _ _ => false

/-- `df[col].isna().sum() > 0`. -/
def Col.hasMissing : Col → Bool
  | .num _ cs => cs.any (fun v => v.isNone)
  | .txt _ cs => cs.any (fun v => v.isNone)

/-- Per-row keep mask used by `df.dropna(subset=[col])`: true where the
cell is present. -/
def Col.keepMask : Col → List Bool
  | .num _ cs => cs.map (fun v => v.isSome)
  | .txt _ cs => cs.map (fun v => v.isSome)

/-- Restrict a cell list to the rows marked true in the mask. -/
def maskCells {α : Type} : List Bool → List (Option α) → List (Option α)
  | b :: bs, v :: vs => if b then v :: maskCells bs vs else maskCells bs vs
  | _, _ => []

/-- Apply a row mask to one column. -/
def Col.mask (m : List Bool) : Col → Col
  | .num n cs => .num n (maskCells m cs)
  | .txt n cs => .txt n (maskCells m cs)

/-- `countP` of missing cells of a column. -/
def Col.missingCount : Col → Nat
  | .num _ cs => cs.countP (fun v => v.isNone)
  | .txt _ cs => cs.countP (fun v => v.isNone)

/-- Number of rows of a column. -/
def Col.size : Col → Nat
  | .num _ cs => cs.length
  | .txt _ cs => cs.length

/-- `df[col].isna().mean()`: fraction of missing cells (0 for an empty
column, matching `NaN > t` being false in the source). -/
def nullFraction (c : Col) : Rat := (Col.missingCount c : Rat) / (Col.size c : Rat)

/-- One entry of the engine's action log (`self.actions`), with the data
the source interpolates into the message string. -/
inductive LogEntry
  | removedDuplicates (n : Nat)
  | standardizedColumns
  | checkedTypes (col : Str)
deriving DecidableEq

/-- One row of the row-major view: one mixed-type field per column.
`null` is NaN (pandas treats NaN as equal to NaN in `drop_duplicates`). -/
inductive Cell
  | null
  | numv (q : Rat)
  | strv (s : Str)
deriving DecidableEq

abbrev Row := List Cell

/-! Pass 1: `remove_duplicates` (`df.drop_duplicates()`). -/

/-- `df.drop_duplicates()` with the default `keep='first'`: keep the head
row and delete every later row equal to it, then continue on the rest. -/
def dropDuplicates {α : Type} [DecidableEq α] : List α → List α
  | [] => []
  | x :: rest => x :: dropDuplicates (rest.filter (fun y => y ≠ x))
termination_by l => l.length
decreasing_by
  simp only [List.length_cons]
  exact Nat.lt_succ_of_le (List.length_filter_le _ _)

/-- Claim-side formalisation of `keeps the first occurrence of each group
of fully-equal rows, deletes the later occurrences, and survivors keep
their relative order`: scan left to right, keeping a row iff it has not
been seen before. -/
def keepFirstOccurrences {α : Type} [DecidableEq α] (seen : List α) :
    List α → List α
  | [] => []
  | x :: xs =>
    if x ∈ seen then keepFirstOccurrences seen xs
    else x :: keepFirstOccurrences (x :: seen) xs

/-- Embedding of `remove_duplicates`: drops duplicate rows and appends one
log entry reporting `initial_rows - len(df)` removed rows — unconditionally,
also when that count is 0. -/
def removeDuplicates (rows : List Row) : List Row × List LogEntry :=
  (dropDuplicates rows,
   [LogEntry.removedDuplicates (rows.length - (dropDuplicates rows).length)])

/-! Pass 2: `handle_missing_values`. -/

/-- Non-null numeric values of a cell list. -/
def presentR (cs : List (Option Rat)) : List Rat := cs.filterMap id

/-- Non-null text values of a cell list. -/
def presentS (cs : List (Option Str)) : List Str := cs.filterMap id

/-- `fillna(v)`: replace every missing cell by `v`. -/
def fillCells {α : Type} (v : α) (cs : List (Option α)) : List (Option α) :=
  cs.map (fun c => some (c.getD v))

/-- Resolution of `strategy == 'auto'` for one column:
numeric dtype chooses `mean` when `df[col].skew() < 2` (signed comparison,
NaN compares false) and `median` otherwise; object dtype chooses `mode`. -/
def resolveAuto : Col → Strategy
  | .num _ cs => if skewLtTwo (presentR cs) then .mean else .median
  | .txt _ _ => .mode

/-- Application of a concrete (non-`auto`, non-`drop`) strategy to one
column, `df[col] = df[col].fillna(...)`:
* `mean`/`median` on a numeric column fill with the mean/median of the
  non-null values; with no non-null value the fill value is NaN and
  `fillna` changes nothing.
* `mode` fills with `mode()[0]`, the smallest most-frequent non-null
  value; on a column with no non-null value the source raises `KeyError`
  (`mode()[0]` on an empty Series) — that corner is modelled as identity
  and theorems about this pass assume at least one non-null value.
* `mean`/`median` on an object column raise `TypeError` in pandas — also
  modelled as identity; theorems over these strategies carry an
  all-numeric hypothesis.
* `auto` and `drop` never reach this function (resolved respectively
  handled in `hmvGo`); they are identity here. -/
def applyFill (s : Strategy) (c : Col) : Col :=
  match c, s with
  | .num n cs, .mean =>
    if presentR cs = [] then .num n cs
    else .num n (fillCells (meanR (presentR cs)) cs)
  | .num n cs, .median =>
    if presentR cs = [] then .num n cs
    else .num n (fillCells (medianR (presentR cs)) cs)
  | .num n cs, .mode =>
    match pandasMode ratLe (presentR cs) with
    | some v => .num n (fillCells v cs)
    | none => .num n cs
  | .txt n cs, .mode =>
    match pandasMode lexLe (presentS cs) with
    | some v => .txt n (fillCells v cs)
    | none => .txt n cs
  | c, _ => c

/-- The loop of `handle_missing_values`.  `done` holds the already
processed columns in reverse order.  Crucially, the Python local variable
`strategy` is reassigned by the `auto` branch, so the strategy resolved at
the first column with missing values is carried to all later columns; the
recursion parameter `s` reproduces exactly that.  The `drop` branch
(`df = df.dropna(subset=[col])`) removes the rows missing in the current
column from the whole frame, i.e. from the processed prefix, the current
column and the remaining columns alike. -/
def hmvGo (s : Strategy) (done : List Col) : List Col → List Col
  | [] => done.reverse
  | c :: rest =>
    if Col.hasMissing c then
      let strat := if s = .auto then resolveAuto c else s
      if strat = .drop then
        let m := Col.keepMask c
        hmvGo strat (Col.mask m c :: done.map (Col.mask m)) (rest.map (Col.mask m))
      else hmvGo strat (applyFill strat c :: done) rest
    else hmvGo s (c :: done) rest
termination_by l => l.length
decreasing_by
  · simp [List.length_map]
  · simp
  · simp

/-- Embedding of `handle_missing_values(df, strategy)`. -/
def handleMissingValues (df : List Col) (s : Strategy) : List Col :=
  hmvGo s [] df

/-! Pass 3: `standardize_columns`. -/

/-- Rename one column with `to_snake_case`. -/
def renameToSnake : Col → Col
  | .num n cs => .num (toSnakeCase n) cs
  | .txt n cs => .txt (toSnakeCase n) cs

/-- Embedding of `standardize_columns`: renames every column and appends
exactly one log entry, unconditionally. -/
def standardizeColumns (df : List Col) : List Col × List LogEntry :=
  (df.map renameToSnake, [LogEntry.standardizedColumns])

/-! Pass 4: `fix_data_types`. -/

/-- Embedding of `fix_data_types`.  `pd.to_numeric(..., errors='ignore')`
is an external library call, taken as an oracle `toNum` that returns the
converted cells when the whole column converts and `none` otherwise
(`errors='ignore'` leaves the column unchanged on any failure).  The loop
appends one `checkedTypes` entry per column inspected, whether or not a
coercion happened. -/
def fixDataTypes (toNum : List (Option Str) → Option (List (Option Rat)))
    (df : List Col) : List Col × List LogEntry :=
  (df.map (fun c =>
      match c with
      | Col.txt n cs =>
        match toNum cs with
        | some rs => Col.num n rs
        | none => Col.txt n cs
      | other => other),
   df.map (fun c => LogEntry.checkedTypes (Col.name c)))

/-! Pass 5: `detect_outliers` with the IQR method and `cap` action. -/

/-- Lower and upper IQR bounds of a numeric value list:
`Q1 - 1.5*IQR` and `Q3 + 1.5*IQR` with `Q1/Q3` the 25th/75th linear
interpolation percentiles. -/
def iqrBounds (cells : List Rat) : Rat × Rat :=
  let s := sortRat cells
  let q1 := quantileR s (1 / 4)
  let q3 := quantileR s (3 / 4)
  let iqr := q3 - q1
  (q1 - 3 / 2 * iqr, q3 + 3 / 2 * iqr)

/-- Per-row outlier flags of the IQR method:
`(df[col] < lower) | (df[col] > upper)`. -/
def iqrOutlierFlags (cells : List Rat) : List Bool :=
  cells.map (fun x => decide (x < (iqrBounds cells).1 ∨ (iqrBounds cells).2 < x))

/-- `_handle_outliers` with `outlier_action == 'cap'` on one complete
numeric column: when at least one row is flagged, flagged cells are
replaced by their clipped value (`df.loc[outliers, col] = df[col].clip(...)`);
with no flagged row nothing happens. -/
def capOutliersIQRCol (cells : List Rat) : List Rat :=
  let lo := (iqrBounds cells).1
  let hi := (iqrBounds cells).2
  if 0 < cells.countP (fun x => decide (x < lo ∨ hi < x)) then
    cells.map (fun x => if x < lo ∨ hi < x then clipR lo hi x else x)
  else cells

/-! Pass 7: `deduplicate_text_fuzzy`. -/

/-- Keys of an association-list mapping. -/
def mapKeys (m : List (Str × Str)) : List Str := m.map (fun p => p.1)

/-- First-match lookup in an association-list mapping. -/
def alookup : List (Str × Str) → Str → Option Str
  | [], _ => none
  | (k, v) :: rest, x => if x = k then some v else alookup rest x

/-- Inner loop of the mapping construction: pair the fixed earlier value
`v1` with each later value `v2`; skip the pair when either end is already
a key of the mapping (`if val1 in mapping or val2 in mapping: continue`);
otherwise, when the case-insensitive similarity reaches the threshold, add
`val2 -> val1` (`mapping[val2] = val1`).  `ratio` is the external
`fuzz.ratio` scorer, taken as an oracle. -/
def buildMappingInner (ratio : Str → Str → Nat) (t : Nat) (v1 : Str) :
    List Str → List (Str × Str) → List (Str × Str)
  | [], m => m
  | v2 :: rest, m =>
    if v1 ∈ mapKeys m ∨ v2 ∈ mapKeys m then buildMappingInner ratio t v1 rest m
    else if t ≤ ratio (lowerStr v1) (lowerStr v2) then
      buildMappingInner ratio t v1 rest (m ++ [(v2, v1)])
    else buildMappingInner ratio t v1 rest m

/-- Outer loop over `enumerate(unique_vals)`: each value is paired with
the values after it. -/
def buildMappingOuter (ratio : Str → Str → Nat) (t : Nat) :
    List Str → List (Str × Str) → List (Str × Str)
  | [], m => m
  | v :: rest, m => buildMappingOuter ratio t rest (buildMappingInner ratio t v rest m)

/-- The substitution mapping `deduplicate_text_fuzzy` builds over the
distinct non-null values of a column, in first-seen order. -/
def buildMapping (ratio : Str → Str → Nat) (t : Nat) (vals : List Str) :
    List (Str × Str) :=
  buildMappingOuter ratio t vals []

/-- `df[col].map(mapping).fillna(df[col])`: mapped values are substituted,
everything else (missing cells included) passes through unchanged. -/
def applyMapping (m : List (Str × Str)) (cells : List (Option Str)) :
    List (Option Str) :=
  cells.map (fun c =>
    match c with
    | none => none
    | some v =>
      match alookup m v with
      | some w => some w
      | none => some v)

/-- Embedding of the body of `deduplicate_text_fuzzy` for one text column:
a column with fewer than two distinct non-null values is skipped
(`continue`); otherwise the mapping is built and, when non-empty, applied
to every cell. -/
def dedupeTextColumn (ratio : Str → Str → Nat) (t : Nat)
    (cells : List (Option Str)) : List (Option Str) :=
  let uniq := uniqueVals (presentS cells)
  if uniq.length < 2 then cells
  else
    let m := buildMapping ratio t uniq
    if m = [] then cells else applyMapping m cells

/-! Pass 8: `drop_high_nullity_columns`. -/

/-- Embedding of `drop_high_nullity_columns`: iterate over the columns in
order and drop exactly those whose null fraction strictly exceeds the
threshold (`if nullity > self.nullity_threshold`). -/
def dropHighNullityColumns (t : Rat) : List Col → List Col
  | [] => []
  | c :: rest =>
    if t < nullFraction c then dropHighNullityColumns t rest
    else c :: dropHighNullityColumns t rest

/-! Pass 10: `scale_numeric_columns`, `minmax` branch. -/

/-- IEEE division as the source relies on it: `0/0` (and any `x/0`)
produces NaN, modelled as `none`; a well-defined quotient is `some`. -/
def divOrNaN (a b : Rat) : Option Rat := if b = 0 then none else some (a / b)

/-- `Series.min()` of a nonempty list (0 for the empty list, unused). -/
def minR : List Rat → Rat
  | [] => 0
  | x :: xs => xs.foldl min x

/-- `Series.max()` of a nonempty list (0 for the empty list, unused). -/
def maxR : List Rat → Rat
  | [] => 0
  | x :: xs => xs.foldl max x

/-- The `minmax` branch of `scale_numeric_columns` on one complete numeric
column: `(df[col] - df[col].min()) / (df[col].max() - df[col].min())`,
with no guard on `max = min`.  (The `standard` branch divides by a square
root and is not exercised by any claim.) -/
def scaleMinmaxCol (cells : List Rat) : List (Option Rat) :=
  cells.map (fun x => divOrNaN (x - minR cells) (maxR cells - minR cells))

/-! Constructor: `DataCleaner.__init__`. -/

/-- The engine's configuration state as `__init__` stores it. -/
structure DataCleaner where
  nullity_threshold : Rat
  outlier_method : Str
  outlier_action : Str
  fuzzy_threshold : Int
  scale_numeric : Bool
  scale_method : Str
  actions : List LogEntry
  outlier_flags : List (Str × List Bool)
deriving DecidableEq

/-- Embedding of `DataCleaner.__init__`.  The result is wrapped in
`Except` so that `raises an error` is statable; the source body is six
attribute assignments plus the two empty containers and contains no
validation and no `raise`, hence the embedding is `Except.ok`
unconditionally. -/
def DataCleaner.init (nt : Rat) (om oa : Str) (ft : Int) (sn : Bool)
    (sm : Str) : Except Unit DataCleaner :=
  Except.ok ⟨nt, om, oa, ft, sn, sm, [], []⟩

/-! Helper lemmas. -/

/-- A string all of whose characters are outside the space/hyphen class is
a fixed point of run collapapsing, whatever the run flag. -/
theorem collapseAux_eq_self (l : List Nat) (b : Bool)
    (h : ∀ c ∈ l, isSpaceHyphen c = false) : collapseAux b l = l := by
  induction l generalizing b with
  | nil => rfl
  | cons c rest ih =>
    have hc : isSpaceHyphen c = false := h c (List.mem_cons_self c rest)
    simp only [collapseAux, hc]
    simp only [Bool.false_eq_true, if_false]
    exact congrArg (c :: ·) (ih false (fun d hd => h d (List.mem_cons_of_mem c hd)))

/-- Allowed characters are already lowercase. -/
theorem lowerChar_of_allowed (c : Nat) (h : isAllowed c = true) :
    lowerChar c = c := by
  simp only [isAllowed, decide_eq_true_eq] at h
  simp only [lowerChar, ite_eq_right_iff]
  intro hc
  omega

/-- Allowed characters are not in the space/hyphen class. -/
theorem not_spaceHyphen_of_allowed (c : Nat) (h : isAllowed c = true) :
    isSpaceHyphen c = false := by
  simp only [isAllowed, decide_eq_true_eq] at h
  simp only [isSpaceHyphen, decide_eq_false_iff_not]
  omega

/-- Snake-case conversion is idempotent on one name. -/
theorem toSnakeCase_idem (s : Str) :
    toSnakeCase (toSnakeCase s) = toSnakeCase s := by
  have hall : ∀ c ∈ toSnakeCase s, isAllowed c = true := by
    intro c hc
    exact (List.mem_filter.mp hc).2
  have h1 : collapseRuns (toSnakeCase s) = toSnakeCase s :=
    collapseAux_eq_self _ false (fun c hc => not_spaceHyphen_of_allowed c (hall c hc))
  have h2 : lowerStr (toSnakeCase s) = toSnakeCase s := by
    unfold lowerStr
    have hmap : List.map lowerChar (toSnakeCase s) = List.map id (toSnakeCase s) :=
      List.map_congr_left (fun c hc => lowerChar_of_allowed c (hall c hc))
    rw [hmap, List.map_id]
  have h3 : (toSnakeCase s).filter isAllowed = toSnakeCase s := by
    rw [List.filter_eq_self]
    intro c hc
    exact hall c hc
  show (lowerStr (collapseRuns (toSnakeCase s))).filter isAllowed = toSnakeCase s
  rw [h1, h2, h3]

/-- Renaming a column twice is renaming it once. -/
theorem renameToSnake_idem (c : Col) :
    renameToSnake (renameToSnake c) = renameToSnake c := by
  cases c with
  | num n cs => simp [renameToSnake, toSnakeCase_idem]
  | txt n cs => simp [renameToSnake, toSnakeCase_idem]

/-! Claim C7. -/

/-- Claim C7: `standardize_columns` is idempotent on column names — a
second application changes nothing — and maps the names `First Name`,
`Last-Name`, `Age@#` to `first_name`, `last_name`, `age` respectively. -/
theorem claim_C7_standardize_idempotent :
    (∀ df : List Col,
        (standardizeColumns (standardizeColumns df).1).1 = (standardizeColumns df).1)
    ∧ toSnakeCase (codes "First Name") = codes "first_name"
    ∧ toSnakeCase (codes "Last-Name") = codes "last_name"
    ∧ toSnakeCase (codes "Age@#") = codes "age" := by
  refine ⟨?_, by decide, by decide, by decide⟩
  intro df
  simp only [standardizeColumns, List.map_map]
  exact List.map_congr_left (fun c _ => renameToSnake_idem c)

/-! Claim C6. -/

/-- The dropping loop keeps exactly the columns whose null fraction is at
most the threshold. -/
theorem dropHighNullity_eq_filter (t : Rat) (df : List Col) :
    dropHighNullityColumns t df
      = df.filter (fun c => decide (nullFraction c ≤ t)) := by
  induction df with
  | nil => rfl
  | cons c rest ih =>
    by_cases h : t < nullFraction c
    · simp [dropHighNullityColumns, h, List.filter_cons, not_le.mpr h, ih]
    · simp [dropHighNullityColumns, h, List.filter_cons, not_lt.mp h, ih]

/-- Claim C6: `drop_high_nullity_columns` drops exactly those columns
whose fraction of missing values strictly exceeds `nullity_threshold`
(kept iff fraction `≤ t`), keeping the others unchanged and in order; at
threshold 0.8, a column with 9 nulls among 10 rows is dropped and a column
with exactly 8 nulls among 10 rows is kept. -/
theorem claim_C6_drop_high_nullity :
    (∀ t df, dropHighNullityColumns t df
        = df.filter (fun c => decide (nullFraction c ≤ t)))
    ∧ (∀ t df, List.Sublist (dropHighNullityColumns t df) df)
    ∧ dropHighNullityColumns (8/10)
        [Col.num [97] [none, none, none, none, none, none, none, none, none, some 1],
         Col.num [98] [none, none, none, none, none, none, none, none, some 1, some 2]]
      = [Col.num [98] [none, none, none, none, none, none, none, none, some 1, some 2]] := by
  refine ⟨dropHighNullity_eq_filter, ?_, ?_⟩
  · intro t df
    rw [dropHighNullity_eq_filter]
    exact List.filter_sublist df
  · have h9 : nullFraction
        (Col.num [97] [none, none, none, none, none, none, none, none, none, some 1])
        = 9/10 := by
      simp [nullFraction, Col.missingCount, Col.size, List.countP, List.countP.go]
    have h8 : nullFraction
        (Col.num [98] [none, none, none, none, none, none, none, none, some 1, some 2])
        = 8/10 := by
      simp [nullFraction, Col.missingCount, Col.size, List.countP, List.countP.go]
    simp only [dropHighNullityColumns, h9, h8]
    norm_num

/-! Claim C4. -/

/-- Claim C4 (counterexample): constructing the engine with
`fuzzy_threshold = 500`, far outside the documented domain `[0,100]`,
raises nothing — `__init__` performs no validation — contradicting the
claim that out-of-domain configuration values raise an error. -/
theorem claim_C4_counterexample :
    (DataCleaner.init (8/10) (codes "iqr") (codes "cap") 500 false
        (codes "minmax")).isOk = true
    ∧ ¬((0:Int) ≤ 500 → (500:Int) ≤ 100) := by
  exact ⟨rfl, by decide⟩

/-- Claim C4 (amended): the constructor stores the configuration verbatim
and never raises, whatever the values, inside or outside their documented
domains; no configuration validation exists in the engine. -/
theorem claim_C4_amended (nt : Rat) (om oa : Str) (ft : Int) (sn : Bool)
    (sm : Str) : (DataCleaner.init nt om oa ft sn sm).isOk = true := rfl

/-! Claim C10. -/

/-- Folding `min` over copies of `c` starting at `c` stays `c`. -/
theorem minR_const (cells : List Rat) (c : Rat) (h1 : cells ≠ [])
    (h2 : ∀ x ∈ cells, x = c) : minR cells = c := by
  cases cells with
  | nil => exact absurd rfl h1
  | cons x xs =>
    have hx : x = c := h2 x (List.mem_cons_self x xs)
    subst hx
    simp only [minR]
    induction xs with
    | nil => rfl
    | cons y ys ih =>
      have hy : y = x := h2 y (List.mem_cons_of_mem x (List.mem_cons_self y ys))
      subst hy
      simp only [List.foldl_cons, min_self]
      exact ih (by simp) (by
        intro z hz
        rcases List.mem_cons.mp hz with h | h
        · exact h ▸ rfl
        · exact h2 z (List.mem_cons_of_mem y (List.mem_cons_of_mem y h)))

/-- Folding `max` over copies of `c` starting at `c` stays `c`. -/
theorem maxR_const (cells : List Rat) (c : Rat) (h1 : cells ≠ [])
    (h2 : ∀ x ∈ cells, x = c) : maxR cells = c := by
  cases cells with
  | nil => exact absurd rfl h1
  | cons x xs =>
    have hx : x = c := h2 x (List.mem_cons_self x xs)
    subst hx
    simp only [maxR]
    induction xs with
    | nil => rfl
    | cons y ys ih =>
      have hy : y = x := h2 y (List.mem_cons_of_mem x (List.mem_cons_self y ys))
      subst hy
      simp only [List.foldl_cons, max_self]
      exact ih (by simp) (by
        intro z hz
        rcases List.mem_cons.mp hz with h | h
        · exact h ▸ rfl
        · exact h2 z (List.mem_cons_of_mem y (List.mem_cons_of_mem y h)))

/-- Claim C10: min-max scaling of a numeric column whose values are all
equal divides by `max - min = 0` without a guard, so every cell becomes an
undefined/missing value (NaN, modelled `none`) instead of staying
unchanged. -/
theorem claim_C10_minmax_constant_column (cells : List Rat) (c : Rat)
    (h1 : cells ≠ []) (h2 : ∀ x ∈ cells, x = c) :
    scaleMinmaxCol cells = cells.map (fun _ => (none : Option Rat))
    ∧ scaleMinmaxCol cells ≠ cells.map (fun x => some x) := by
  have hmin := minR_const cells c h1 h2
  have hmax := maxR_const cells c h1 h2
  have hmain : scaleMinmaxCol cells = cells.map (fun _ => (none : Option Rat)) := by
    unfold scaleMinmaxCol
    apply List.map_congr_left
    intro x _
    simp [divOrNaN, hmin, hmax]
  refine ⟨hmain, ?_⟩
  rw [hmain]
  cases cells with
  | nil => exact absurd rfl h1
  | cons x xs => simp

/-- Claim C10 witness: the constant column `[5,5,5]` is wiped to all-NaN
by min-max scaling. -/
theorem claim_C10_witness :
    scaleMinmaxCol [5, 5, 5] = [none, none, none]
    ∧ scaleMinmaxCol [5, 5, 5] ≠ [some 5, some 5, some 5] := by
  have hmain := claim_C10_minmax_constant_column [5, 5, 5] 5 (by simp) (by simp)
  exact ⟨hmain.1, by simpa using hmain.2⟩

/-! Duplicate-removal lemmas (claims C9 and C3). -/

/-- Unfolding lemma for `dropDuplicates` on the empty list. -/
theorem dropDuplicates_nil {α : Type} [DecidableEq α] :
    dropDuplicates ([] : List α) = [] := by
  rw [dropDuplicates]

/-- Unfolding lemma for `dropDuplicates` on a nonempty list. -/
theorem dropDuplicates_cons {α : Type} [DecidableEq α] (x : α) (rest : List α) :
    dropDuplicates (x :: rest)
      = x :: dropDuplicates (rest.filter (fun y => y ≠ x)) := by
  rw [dropDuplicates]

/-- The deduplicated list is a sublist of the original: surviving rows
keep their relative order and nothing else changes. -/
theorem dropDuplicates_sublist {α : Type} [DecidableEq α] (l : List α) :
    List.Sublist (dropDuplicates l) l := by
  induction l using dropDuplicates.induct with
  | case1 => simp [dropDuplicates]
  | case2 x rest ih =>
    rw [dropDuplicates]
    exact List.Sublist.cons₂ x (ih.trans (List.filter_sublist rest))

/-- Membership survives deduplication in both directions: the first
occurrence of every row is kept. -/
theorem dropDuplicates_mem {α : Type} [DecidableEq α] (l : List α) (x : α) :
    x ∈ dropDuplicates l ↔ x ∈ l := by
  induction l using dropDuplicates.induct with
  | case1 => simp [dropDuplicates]
  | case2 y rest ih =>
    rw [dropDuplicates]
    constructor
    · intro hx
      rcases List.mem_cons.mp hx with h | h
      · exact h ▸ List.mem_cons_self y rest
      · exact List.mem_cons_of_mem y (List.mem_of_mem_filter (ih.mp h))
    · intro hx
      rcases List.mem_cons.mp hx with h | h
      · exact h ▸ List.mem_cons_self y _
      · by_cases hxy : x = y
        · exact hxy ▸ List.mem_cons_self y _
        · refine List.mem_cons_of_mem y (ih.mpr ?_)
          exact List.mem_filter.mpr ⟨h, by simp [hxy]⟩

/-- After deduplication no two rows are equal. -/
theorem dropDuplicates_nodup {α : Type} [DecidableEq α] (l : List α) :
    (dropDuplicates l).Nodup := by
  induction l using dropDuplicates.induct with
  | case1 => simp [dropDuplicates]
  | case2 x rest ih =>
    rw [dropDuplicates]
    refine List.nodup_cons.mpr ⟨?_, ih⟩
    intro hx
    have hmem := (dropDuplicates_mem _ x).mp hx
    have := (List.mem_filter.mp hmem).2
    simp at this

/-- A list without duplicate rows is untouched by deduplication. -/
theorem dropDuplicates_eq_self_of_nodup {α : Type} [DecidableEq α]
    (l : List α) (h : l.Nodup) : dropDuplicates l = l := by
  induction l using dropDuplicates.induct with
  | case1 => exact dropDuplicates_nil
  | case2 x rest ih =>
    rw [dropDuplicates]
    rcases List.nodup_cons.mp h with ⟨hx, hrest⟩
    have hfe : rest.filter (fun y => y ≠ x) = rest := by
      apply List.filter_eq_self.mpr
      intro y hy
      simp only [ne_eq, decide_eq_true_eq]
      intro hyx
      exact hx (hyx ▸ hy)
    rw [hfe] at ih ⊢
    rw [ih hrest]

/-- The first-occurrence scan equals deduplication of the not-yet-seen
elements. -/
theorem keepFirstOccurrences_eq_dropDuplicates {α : Type} [DecidableEq α]
    (l : List α) (seen : List α) :
    keepFirstOccurrences seen l
      = dropDuplicates (l.filter (fun y => decide (y ∉ seen))) := by
  induction l generalizing seen with
  | nil => simp [keepFirstOccurrences, dropDuplicates_nil]
  | cons x xs ih =>
    by_cases hx : x ∈ seen
    · simp only [keepFirstOccurrences, if_pos hx, List.filter_cons]
      simp only [hx, not_true_eq_false]
      simp only [decide_False, if_false]
      exact ih seen
    · simp only [keepFirstOccurrences, if_neg hx, List.filter_cons]
      simp only [hx, not_false_eq_true]
      simp only [decide_True, if_true]
      rw [dropDuplicates_cons]
      congr 1
      rw [List.filter_filter]
      rw [ih (x :: seen)]
      congr 1
      apply List.filter_congr
      intro y _
      by_cases hyx : y = x
      · subst hyx
        simp
      · simp [hyx, List.mem_cons]

/-! Claim C9. -/

/-- Claim C9: `remove_duplicates` (pandas `drop_duplicates`) keeps the
first occurrence of each group of fully-equal rows and deletes the later
occurrences: the result is exactly the left-to-right first-occurrence
scan, is a sublist of the input (surviving rows keep their original
relative order), has no duplicate rows, and contains exactly the row
values of the input. -/
theorem claim_C9_remove_duplicates_keeps_first (rows : List Row) :
    dropDuplicates rows = keepFirstOccurrences [] rows
    ∧ List.Sublist (dropDuplicates rows) rows
    ∧ (dropDuplicates rows).Nodup
    ∧ ∀ r, r ∈ dropDuplicates rows ↔ r ∈ rows := by
  refine ⟨?_, dropDuplicates_sublist rows, dropDuplicates_nodup rows,
    fun r => dropDuplicates_mem rows r⟩
  rw [keepFirstOccurrences_eq_dropDuplicates]
  have hfilter : rows.filter (fun y => decide (y ∉ ([] : List Row))) = rows := by
    apply List.filter_eq_self.mpr
    intro y _
    simp
  rw [hfilter]

/-! Claim C3. -/

/-- Claim C3 (counterexample): on a one-row dataset, which has no
duplicate rows, `remove_duplicates` changes nothing yet still appends a
log entry (`Removed 0 duplicate rows`) — the claim that duplicate removal
on a duplicate-free dataset appends nothing is false. -/
theorem claim_C3_counterexample :
    (removeDuplicates [[Cell.numv 1]]).1 = [[Cell.numv 1]]
    ∧ (removeDuplicates [[Cell.numv 1]]).2 = [LogEntry.removedDuplicates 0]
    ∧ (removeDuplicates [[Cell.numv 1]]).2 ≠ [] := by
  refine ⟨?_, ?_, ?_⟩ <;> simp [removeDuplicates, dropDuplicates]

/-- Claim C3 (amended): `remove_duplicates` and `standardize_columns`
append exactly one log entry on every invocation, including when they
change nothing (zero duplicate rows; already-standardized names), and
`fix_data_types` appends one entry per column inspected even when no
coercion occurs.  Appending only on change holds for none of the three
passes the claim names. -/
theorem claim_C3_amended :
    (∀ rows : List Row, rows.Nodup →
        (removeDuplicates rows).1 = rows
        ∧ (removeDuplicates rows).2 = [LogEntry.removedDuplicates 0])
    ∧ (∀ df : List Col, (∀ c ∈ df, Col.name c = toSnakeCase (Col.name c)) →
        (standardizeColumns df).1 = df
        ∧ (standardizeColumns df).2 = [LogEntry.standardizedColumns])
    ∧ (∀ (f : List (Option Str) → Option (List (Option Rat))) (df : List Col),
        (fixDataTypes f df).1 = df →
        (fixDataTypes f df).2 = df.map (fun c => LogEntry.checkedTypes (Col.name c))
        ∧ (fixDataTypes f df).2.length = df.length) := by
  refine ⟨?_, ?_, ?_⟩
  · intro rows h
    have he := dropDuplicates_eq_self_of_nodup rows h
    constructor
    · exact he
    · simp [removeDuplicates, he]
  · intro df h
    constructor
    · simp only [standardizeColumns]
      have : ∀ c ∈ df, renameToSnake c = c := by
        intro c hc
        have hn := h c hc
        cases c with
        | num n cs =>
          simp only [Col.name] at hn
          simp [renameToSnake, hn.symm]
        | txt n cs =>
          simp only [Col.name] at hn
          simp [renameToSnake, hn.symm]
      calc df.map renameToSnake = df.map id := List.map_congr_left this
        _ = df := List.map_id df
    · rfl
  · intro f df _
    exact ⟨rfl, by simp [fixDataTypes]⟩

/-- Claim C3 witness: the amended statement applied to the concrete
duplicate-free one-row dataset. -/
theorem claim_C3_witness :
    (removeDuplicates [[Cell.numv 1]]).2 = [LogEntry.removedDuplicates 0] :=
  (claim_C3_amended.1 [[Cell.numv 1]] (by simp)).2

/-! Missing-value pass lemmas (claims C5 and C1). -/

/-- With a fixed non-`auto`, non-`drop` strategy the loop treats every
column independently: each column with missing values is filled with that
strategy, every other column passes through unchanged. -/
theorem hmvGo_fixed (s : Strategy) (h1 : s ≠ Strategy.auto)
    (h2 : s ≠ Strategy.drop) (rest done : List Col) :
    hmvGo s done rest
      = done.reverse
        ++ rest.map (fun c => if Col.hasMissing c then applyFill s c else c) := by
  induction rest generalizing done with
  | nil => simp [hmvGo]
  | cons c cs ih =>
    by_cases hm : Col.hasMissing c
    · simp only [hmvGo, hm, if_true, if_neg h1, if_neg h2]
      rw [ih]
      simp [hm, List.append_assoc]
    · simp only [hmvGo, hm, Bool.false_eq_true, if_false]
      rw [ih]
      simp [hm, List.append_assoc]

/-- `handle_missing_values` with a fixed non-`auto`, non-`drop` strategy
is a per-column map. -/
theorem handleMissingValues_fixed (s : Strategy) (h1 : s ≠ Strategy.auto)
    (h2 : s ≠ Strategy.drop) (df : List Col) :
    handleMissingValues df s
      = df.map (fun c => if Col.hasMissing c then applyFill s c else c) := by
  unfold handleMissingValues
  rw [hmvGo_fixed s h1 h2 df []]
  simp

/-! Claim C5. -/

/-- Claim C5 (counterexample): a numeric column whose single cell is
missing still has a missing cell after `handle_missing_values` with
strategy `mean`: the mean of no values is NaN and `fillna(NaN)` fills
nothing, so the claim that no missing values remain in every column that
had at least one missing value is false. -/
theorem claim_C5_counterexample :
    handleMissingValues [Col.num [120] [none]] Strategy.mean
      = [Col.num [120] [none]]
    ∧ Col.hasMissing (Col.num [120] [none]) = true := by
  constructor
  · rw [handleMissingValues_fixed Strategy.mean (by decide) (by decide)]
    simp [Col.hasMissing, applyFill, presentR]
  · simp [Col.hasMissing]

/-- Claim C5 (amended): over an all-numeric dataset, after
`handle_missing_values` with strategy `mean`, every column that had at
least one non-missing value contains no missing value any more, and every
cell that was non-missing keeps its value.  (The amendment restricts the
claim to columns with at least one non-missing value — an all-null column
keeps its missing cells, see the counterexample — and to numeric columns,
since pandas raises `TypeError` for `mean` on an object column.) -/
theorem claim_C5_mean_fill (df : List Col) (i : Nat) (n : Str)
    (cells : List (Option Rat))
    (hall : ∀ c ∈ df, Col.isNum c = true)
    (hcol : df[i]? = some (Col.num n cells))
    (hpres : presentR cells ≠ []) :
    ∃ cells' : List (Option Rat),
      (handleMissingValues df Strategy.mean)[i]? = some (Col.num n cells')
      ∧ (∀ v ∈ cells', v ≠ none)
      ∧ (∀ (j : Nat) (x : Rat),
          cells[j]? = some (some x) → cells'[j]? = some (some x)) := by
  rw [handleMissingValues_fixed Strategy.mean (by decide) (by decide)]
  rw [List.getElem?_map, hcol]
  by_cases hm : Col.hasMissing (Col.num n cells) = true
  · refine ⟨fillCells (meanR (presentR cells)) cells, ?_, ?_, ?_⟩
    · simp [hm, applyFill, hpres]
    · intro v hv
      simp only [fillCells, List.mem_map] at hv
      rcases hv with ⟨u, _, rfl⟩
      simp
    · intro j x hj
      simp [fillCells, List.getElem?_map, hj]
  · refine ⟨cells, ?_, ?_, ?_⟩
    · simp [hm]
    · intro v hv
      have hnm : (none : Option Rat) ∉ cells := by
        simpa [Col.hasMissing] using hm
      intro hveq
      exact hnm (hveq ▸ hv)
    · intro j x hj
      exact hj

/-- Claim C5 witness: the two-row numeric column `[1, missing]` is filled
to `[1, 1]` with all cells present and the first cell unchanged. -/
theorem claim_C5_witness :
    ∃ cells' : List (Option Rat),
      (handleMissingValues [Col.num [120] [some 1, none]] Strategy.mean)[0]?
        = some (Col.num [120] cells')
      ∧ (∀ v ∈ cells', v ≠ none)
      ∧ (∀ (j : Nat) (x : Rat), ([some (1:Rat), none])[j]? = some (some x)
          → cells'[j]? = some (some x)) :=
  claim_C5_mean_fill [Col.num [120] [some 1, none]] 0 [120] [some 1, none]
    (by simp [Col.isNum]) (by simp) (by simp [presentR])

/-! Claim C1. -/

/-- Columns without missing values are passed over unchanged and leave
the strategy variable untouched. -/
theorem hmvGo_skip_clean (s : Strategy) :
    ∀ (pre done tail : List Col),
      (∀ c ∈ pre, Col.hasMissing c = false) →
      hmvGo s done (pre ++ tail) = hmvGo s (pre.reverse ++ done) tail := by
  intro pre
  induction pre with
  | nil =>
    intro done tail _
    simp
  | cons p ps ih =>
    intro done tail h
    have hp : Col.hasMissing p = false := h p (List.mem_cons_self p ps)
    simp only [List.cons_append, hmvGo, hp, Bool.false_eq_true, if_false]
    rw [ih (p :: done) tail (fun c hc => h c (List.mem_cons_of_mem p hc))]
    simp [List.append_assoc]

/-- The `auto` resolution never yields `auto` again. -/
theorem resolveAuto_ne_auto (c : Col) : resolveAuto c ≠ Strategy.auto := by
  cases c with
  | num n cs =>
    simp only [resolveAuto]
    split <;> simp
  | txt n cs => simp [resolveAuto]

/-- The `auto` resolution never yields `drop`. -/
theorem resolveAuto_ne_drop (c : Col) : resolveAuto c ≠ Strategy.drop := by
  cases c with
  | num n cs =>
    simp only [resolveAuto]
    split <;> simp
  | txt n cs => simp [resolveAuto]

/-- Claim C1 (amended): with strategy `auto` the fill strategy is not
chosen independently per column.  The Python loop reassigns its local
`strategy` variable, so the strategy resolved at the first column with
missing values (mean for a numeric column when the signed sample skewness
is `< 2` — a zero-variance column has skewness 0.0, hence mean, and NaN,
arising only below 3 non-null values, compares false, hence median — else
median; the smallest most-frequent value for a non-numeric column) is
applied uniformly to every later column with missing values: the whole
call behaves exactly like a call with that first resolved strategy.  On a
dataset with no missing values `auto` changes nothing. -/
theorem claim_C1_amended :
    (∀ (df pre post : List Col) (c : Col),
        df = pre ++ c :: post →
        (∀ c' ∈ pre, Col.hasMissing c' = false) →
        Col.hasMissing c = true →
        handleMissingValues df Strategy.auto
          = handleMissingValues df (resolveAuto c))
    ∧ (∀ df : List Col, (∀ c ∈ df, Col.hasMissing c = false) →
        handleMissingValues df Strategy.auto = df) := by
  constructor
  · intro df pre post c hdf hpre hc
    subst hdf
    unfold handleMissingValues
    rw [hmvGo_skip_clean Strategy.auto pre [] (c :: post) hpre]
    rw [hmvGo_skip_clean (resolveAuto c) pre [] (c :: post) hpre]
    simp only [hmvGo, hc, if_true]
    rw [ite_self]
  · intro df h
    calc hmvGo Strategy.auto [] df
        = hmvGo Strategy.auto [] (df ++ []) := by simp
      _ = hmvGo Strategy.auto (df.reverse ++ []) [] :=
          hmvGo_skip_clean Strategy.auto df [] [] h
      _ = df := by simp [hmvGo]

/-- Claim C1 witness: on a one-column dataset whose text column has a
missing cell, the `auto` call coincides with the call using the strategy
resolved at that first column. -/
theorem claim_C1_witness :
    handleMissingValues [Col.txt [97] [some [97], none]] Strategy.auto
      = handleMissingValues [Col.txt [97] [some [97], none]]
          (resolveAuto (Col.txt [97] [some [97], none])) :=
  claim_C1_amended.1 [Col.txt [97] [some [97], none]] [] []
    (Col.txt [97] [some [97], none]) rfl (by simp)
    (by simp [Col.hasMissing])

/-- Claim C1 (counterexample): two columns, both with one missing cell.
The first (text) column resolves `auto` to the mode strategy; the Python
variable reassignment then applies mode to the second, numeric, column,
filling its missing cell with the most frequent value 1 — although that
column's skewness magnitude is below 2, so the claim's independent
per-column choice would fill with the mean 4.  The strategy chosen for
the first column changed the strategy applied to the later column. -/
theorem claim_C1_counterexample :
    handleMissingValues
        [Col.txt [97] [some [97], some [97], some [97], some [98], none],
         Col.num [98] [some 1, some 1, some 4, some 10, none]]
        Strategy.auto
      = [Col.txt [97] [some [97], some [97], some [97], some [98], some [97]],
         Col.num [98] [some 1, some 1, some 4, some 10, some 1]]
    ∧ skewLtTwo [1, 1, 4, 10] = true
    ∧ meanR [1, 1, 4, 10] = 4
    ∧ ((4 : Rat) ≠ 1) := by
  refine ⟨?_, ?_, ?_, by norm_num⟩
  · unfold handleMissingValues
    simp only [hmvGo, List.map_cons, List.map_nil]
    decide
  · norm_num [skewLtTwo, meanR]
  · norm_num [meanR]

/-! Claim C8. -/

/-- Claim C8: for the numeric column `[1,2,3,4,100]` the linear
interpolation quartiles are `Q1 = 2` and `Q3 = 4`, the IQR bounds are
`[-1, 7]`, exactly the value 100 is flagged as an outlier, and the `cap`
action yields `[1,2,3,4,7]`. -/
theorem claim_C8_iqr_cap_concrete :
    sortRat [1, 2, 3, 4, 100] = [1, 2, 3, 4, 100]
    ∧ quantileR (sortRat [1, 2, 3, 4, 100]) (1 / 4) = 2
    ∧ quantileR (sortRat [1, 2, 3, 4, 100]) (3 / 4) = 4
    ∧ iqrBounds [1, 2, 3, 4, 100] = (-1, 7)
    ∧ iqrOutlierFlags [1, 2, 3, 4, 100] = [false, false, false, false, true]
    ∧ capOutliersIQRCol [1, 2, 3, 4, 100] = [1, 2, 3, 4, 7] := by
  have hsort : sortRat [1, 2, 3, 4, 100] = [1, 2, 3, 4, 100] := by
    norm_num [sortRat, insertSorted]
  have hq1 : quantileR (sortRat [1, 2, 3, 4, 100]) (1 / 4) = 2 := by
    rw [hsort]
    norm_num [quantileR]
  have hq3 : quantileR (sortRat [1, 2, 3, 4, 100]) (3 / 4) = 4 := by
    rw [hsort]
    norm_num [quantileR]
    norm_num [show Int.toNat 3 = 3 from rfl]
  have hb : iqrBounds [1, 2, 3, 4, 100] = (-1, 7) := by
    rw [iqrBounds, hq1, hq3]
    norm_num
  refine ⟨hsort, hq1, hq3, hb, ?_, ?_⟩
  · rw [iqrOutlierFlags, hb]
    norm_num
  · rw [capOutliersIQRCol, hb]
    norm_num [clipR, List.countP, List.countP.go]

/-! Claim C2. -/

/-- A value that is not a key of the mapping looks up to nothing. -/
theorem alookup_eq_none {m : List (Str × Str)} {x : Str}
    (h : x ∉ mapKeys m) : alookup m x = none := by
  induction m with
  | nil => rfl
  | cons p rest ih =>
    obtain ⟨k, v⟩ := p
    simp only [mapKeys, List.map_cons, List.mem_cons] at h
    push_neg at h
    simp only [alookup, if_neg h.1]
    exact ih (by simpa [mapKeys] using h.2)

/-- A successful lookup exhibits a pair of the mapping. -/
theorem alookup_mem {m : List (Str × Str)} {k v : Str}
    (h : alookup m k = some v) : (k, v) ∈ m := by
  induction m with
  | nil => simp [alookup] at h
  | cons p rest ih =>
    obtain ⟨k', v'⟩ := p
    by_cases hk : k = k'
    · subst hk
      simp only [alookup, eq_self_iff_true, if_true, Option.some.injEq] at h
      subst h
      exact List.mem_cons_self _ _
    · simp only [alookup, if_neg hk] at h
      exact List.mem_cons_of_mem _ (ih h)

/-- The first-seen distinct scan emits no duplicates and nothing from the
seen accumulator. -/
theorem uniqAux_nodup {α : Type} [DecidableEq α] :
    ∀ (l seen : List α),
      (uniqAux seen l).Nodup ∧ ∀ x ∈ uniqAux seen l, x ∉ seen := by
  intro l
  induction l with
  | nil =>
    intro seen
    simp [uniqAux]
  | cons x xs ih =>
    intro seen
    by_cases hx : x ∈ seen
    · simp only [uniqAux, if_pos hx]
      exact ih seen
    · simp only [uniqAux, if_neg hx]
      obtain ⟨hnd, hs⟩ := ih (x :: seen)
      refine ⟨List.nodup_cons.mpr ⟨?_, hnd⟩, ?_⟩
      · intro hmem
        exact hs x hmem (List.mem_cons_self x seen)
      · intro y hy
        rcases List.mem_cons.mp hy with h | h
        · exact h ▸ hx
        · exact fun hseen => hs y h (List.mem_cons_of_mem x hseen)

/-- Invariant preservation through the inner pairing loop.  Starting from
a mapping whose keys are distinct, whose every pair maps a value to a
strictly earlier value of `vals`, whose targets are never keys, and whose
targets avoid the remaining candidates, the inner loop for the fixed
earlier value `v1` preserves all of these and adds only pairs whose
target is `v1`. -/
theorem buildMappingInner_inv (ratio : Str → Str → Nat) (t : Nat)
    (vals : List Str) (hnd : vals.Nodup) (v1 : Str) :
    ∀ (rest : List Str) (m : List (Str × Str)) (pre mid : List Str),
      vals = pre ++ v1 :: (mid ++ rest) →
      (mapKeys m).Nodup →
      (∀ p ∈ m, ∃ l1 l2 l3, vals = l1 ++ p.2 :: (l2 ++ p.1 :: l3)) →
      (∀ p ∈ m, p.2 ∉ mapKeys m) →
      (∀ p ∈ m, p.2 ∉ rest) →
      (mapKeys (buildMappingInner ratio t v1 rest m)).Nodup
      ∧ (∀ p ∈ buildMappingInner ratio t v1 rest m,
          ∃ l1 l2 l3, vals = l1 ++ p.2 :: (l2 ++ p.1 :: l3))
      ∧ (∀ p ∈ buildMappingInner ratio t v1 rest m,
          p.2 ∉ mapKeys (buildMappingInner ratio t v1 rest m))
      ∧ (∀ p ∈ buildMappingInner ratio t v1 rest m, p ∈ m ∨ p.2 = v1) := by
  intro rest
  induction rest with
  | nil =>
    intro m pre mid hvals hk hdec htk _
    simp only [buildMappingInner]
    exact ⟨hk, hdec, htk, fun p hp => Or.inl hp⟩
  | cons v2 rest' ih =>
    intro m pre mid hvals hk hdec htk ht
    have hvals' : vals = pre ++ v1 :: ((mid ++ [v2]) ++ rest') := by
      rw [hvals]
      simp [List.append_assoc]
    have hnd1 : (v1 :: (mid ++ v2 :: rest')).Nodup := by
      have := hvals ▸ hnd
      exact this.of_append_right
    have hv1nm : v1 ∉ mid ++ v2 :: rest' := (List.nodup_cons.mp hnd1).1
    have hv1v2 : v1 ≠ v2 := by
      intro he
      exact hv1nm (List.mem_append_right mid (he ▸ List.mem_cons_self v2 rest'))
    have hv1r : v1 ∉ rest' := by
      intro he
      exact hv1nm (List.mem_append_right mid (List.mem_cons_of_mem v2 he))
    simp only [buildMappingInner]
    by_cases hskip : v1 ∈ mapKeys m ∨ v2 ∈ mapKeys m
    · rw [if_pos hskip]
      exact ih m pre (mid ++ [v2]) hvals' hk hdec htk
        (fun p hp hmem => ht p hp (List.mem_cons_of_mem v2 hmem))
    · rw [if_neg hskip]
      push_neg at hskip
      by_cases hsc : t ≤ ratio (lowerStr v1) (lowerStr v2)
      · rw [if_pos hsc]
        have hkeys' : mapKeys (m ++ [(v2, v1)]) = mapKeys m ++ [v2] := by
          simp [mapKeys]
        have hres := ih (m ++ [(v2, v1)]) pre (mid ++ [v2]) hvals'
          (by
            rw [hkeys']
            rw [List.nodup_append]
            exact ⟨hk, List.nodup_singleton v2,
              by simpa [List.disjoint_singleton] using hskip.2⟩)
          (by
            intro p hp
            rcases List.mem_append.mp hp with hold | hnew
            · exact hdec p hold
            · have hpe : p = (v2, v1) := by simpa using hnew
              subst hpe
              exact ⟨pre, mid, rest', by simpa using hvals⟩)
          (by
            intro p hp
            rw [hkeys']
            rcases List.mem_append.mp hp with hold | hnew
            · intro hmem
              rcases List.mem_append.mp hmem with hkm | hv2
              · exact htk p hold hkm
              · have : p.2 = v2 := by simpa using hv2
                exact ht p hold (this ▸ List.mem_cons_self v2 rest')
            · have hpe : p = (v2, v1) := by simpa using hnew
              subst hpe
              intro hmem
              rcases List.mem_append.mp hmem with hkm | hv2
              · exact hskip.1 hkm
              · exact hv1v2 (by simpa using hv2))
          (by
            intro p hp
            rcases List.mem_append.mp hp with hold | hnew
            · exact fun hmem => ht p hold (List.mem_cons_of_mem v2 hmem)
            · have hpe : p = (v2, v1) := by simpa using hnew
              subst hpe
              exact hv1r)
        refine ⟨hres.1, hres.2.1, hres.2.2.1, ?_⟩
        intro p hp
        rcases hres.2.2.2 p hp with hm | htag
        · rcases List.mem_append.mp hm with hold | hnew
          · exact Or.inl hold
          · have hpe : p = (v2, v1) := by simpa using hnew
            exact Or.inr (by rw [hpe])
        · exact Or.inr htag
      · rw [if_neg hsc]
        exact ih m pre (mid ++ [v2]) hvals' hk hdec htk
          (fun p hp hmem => ht p hp (List.mem_cons_of_mem v2 hmem))

/-- Invariant preservation through the outer loop over the distinct
values. -/
theorem buildMappingOuter_inv (ratio : Str → Str → Nat) (t : Nat)
    (vals : List Str) (hnd : vals.Nodup) :
    ∀ (s : List Str) (m : List (Str × Str)) (pre : List Str),
      vals = pre ++ s →
      (mapKeys m).Nodup →
      (∀ p ∈ m, ∃ l1 l2 l3, vals = l1 ++ p.2 :: (l2 ++ p.1 :: l3)) →
      (∀ p ∈ m, p.2 ∉ mapKeys m) →
      (∀ p ∈ m, p.2 ∉ s) →
      (mapKeys (buildMappingOuter ratio t s m)).Nodup
      ∧ (∀ p ∈ buildMappingOuter ratio t s m,
          ∃ l1 l2 l3, vals = l1 ++ p.2 :: (l2 ++ p.1 :: l3))
      ∧ (∀ p ∈ buildMappingOuter ratio t s m,
          p.2 ∉ mapKeys (buildMappingOuter ratio t s m)) := by
  intro s
  induction s with
  | nil =>
    intro m pre hvals hk hdec htk _
    simp only [buildMappingOuter]
    exact ⟨hk, hdec, htk⟩
  | cons v1 srest ih =>
    intro m pre hvals hk hdec htk ht
    simp only [buildMappingOuter]
    obtain ⟨hk', hdec', htk', hnew⟩ :=
      buildMappingInner_inv ratio t vals hnd v1 srest m pre []
        (by simpa using hvals) hk hdec htk
        (fun p hp hmem => ht p hp (List.mem_cons_of_mem v1 hmem))
    refine ih (buildMappingInner ratio t v1 srest m) (pre ++ [v1]) ?_ hk' hdec' htk' ?_
    · rw [hvals]
      simp [List.append_assoc]
    · intro p hp hmem
      rcases hnew p hp with hold | htag
      · exact ht p hold (List.mem_cons_of_mem v1 hmem)
      · have h2 : (v1 :: srest).Nodup := by
          have := hvals ▸ hnd
          exact this.of_append_right
        exact (List.nodup_cons.mp h2).1 (htag ▸ hmem)

/-- Claim C2: over any run of `deduplicate_text_fuzzy` on a text column,
the substitution mapping built over the distinct non-null values in
first-seen order (a list without duplicates; `uniqueVals` of a column is
always such a list) maps each value to at most one canonical value (its
keys are distinct, so lookup is single-valued), maps a value only to a
strictly earlier-encountered value, contains no cycle (a looked-up
canonical value is never itself mapped, so no chain of length two —
a fortiori no cycle — exists), is a pure function of the value order and
the scorer (determinism), and a column with fewer than two distinct
non-null values is returned completely untouched. -/
theorem claim_C2_fuzzy_mapping (ratio : Str → Str → Nat) (t : Nat) :
    (∀ vals : List Str, vals.Nodup →
      (mapKeys (buildMapping ratio t vals)).Nodup
      ∧ (∀ k v : Str, alookup (buildMapping ratio t vals) k = some v →
          (∃ l1 l2 l3, vals = l1 ++ v :: (l2 ++ k :: l3))
          ∧ alookup (buildMapping ratio t vals) v = none))
    ∧ (∀ l : List Str, (uniqueVals l).Nodup)
    ∧ (∀ cells : List (Option Str),
        (uniqueVals (presentS cells)).length < 2 →
        dedupeTextColumn ratio t cells = cells) := by
  refine ⟨?_, fun l => (uniqAux_nodup l []).1, ?_⟩
  · intro vals hnd
    obtain ⟨hk, hdec, htk⟩ :=
      buildMappingOuter_inv ratio t vals hnd vals [] [] rfl
        (by simp [mapKeys]) (by simp) (by simp) (by simp)
    refine ⟨hk, ?_⟩
    intro k v hlook
    have hmem := alookup_mem hlook
    exact ⟨hdec (k, v) hmem, alookup_eq_none (htk (k, v) hmem)⟩
  · intro cells h
    simp [dedupeTextColumn, h]

/-- Claim C2 witness: the mapping guarantees at the two distinct values
`"b","a"` under a scorer that always returns 100 and threshold 90 (the
pair is merged: `a` maps to the earlier `b`). -/
theorem claim_C2_witness :
    (mapKeys (buildMapping (fun _ _ => 100) 90 [[98], [97]])).Nodup
    ∧ (∀ k v : Str,
        alookup (buildMapping (fun _ _ => 100) 90 [[98], [97]]) k = some v →
        (∃ l1 l2 l3, ([[98], [97]] : List Str) = l1 ++ v :: (l2 ++ k :: l3))
        ∧ alookup (buildMapping (fun _ _ => 100) 90 [[98], [97]]) v = none) :=
  (claim_C2_fuzzy_mapping (fun _ _ => 100) 90).1 [[98], [97]] (by decide)
